import Mathlib

/-!
# Verification of the pub-till pricing engine

Shallow embedding of the pricing core of the `pubTill` repository:

* `bestLineTotalWithDeals` (deal pricing engine) from `src/src/App.jsx`
  lines 29-58, and its sibling implementation from `src/unnamed/part_000`
  lines 17-49 (which differs only in the deal filter: it lacks the
  `Number.isFinite` checks);
* `resolveUnitsAndPrices` (catalog resolver), `App.jsx` lines 160-170;
* the basket operations `addToBasket`, `incQty`, `decQty`, `removeLine`,
  `App.jsx` lines 192-236.

Money is integer pence throughout the application, so finite JavaScript
numbers are modelled as `Int`.  Since the deals list is duck-typed, deal
fields are modelled as loose JavaScript values (`JVal`): numbers (finite,
infinite or NaN), strings, or `undefined`.  A string value carries, as
data, the number it coerces to under JavaScript's `ToNumber` (for a
non-numeric string this is NaN); the arithmetic and comparison operators
used by the engine are given their exact JavaScript semantics over these
values.  All functions are total, which embeds the source's
"never raises" behaviour.
-/

/-- An extended number: the result of coercing a JavaScript value to a
number.  Finite values are integers (the app only handles integer pence
and integer quantities). -/
inductive ENum where
  | fin (n : Int)
  | posInf
  | negInf
  | nan
deriving DecidableEq, Repr

namespace ENum

/-- JavaScript `String(x)` for a number. -/
def render : ENum → String
  | .fin n => toString n
  | .posInf => "Infinity"
  | .negInf => "-Infinity"
  | .nan => "NaN"

/-- JavaScript `a < b` (after numeric coercion): false whenever either
side is NaN. -/
def ltJS : ENum → ENum → Bool
  | .nan, _ => false
  | _, .nan => false
  | .fin a, .fin b => a < b
  | .fin _, .posInf => true
  | .fin _, .negInf => false
  | .posInf, _ => false
  | .negInf, .negInf => false
  | .negInf, _ => true

/-- JavaScript `x > 0`. -/
def gtZeroJS : ENum → Bool
  | .fin n => 0 < n
  | .posInf => true
  | .negInf => false
  | .nan => false

/-- JavaScript `x >= 0`: false for NaN. -/
def geZeroJS : ENum → Bool
  | .fin n => 0 ≤ n
  | .posInf => true
  | .negInf => false
  | .nan => false

/-- JavaScript `Math.floor(a / b)`.  On finite integer operands with
`b ≠ 0` this is exact floor division; division by zero gives a signed
infinity (or NaN for `0/0`); a finite value divided by an infinity gives
(a possibly negative) zero, whose floor is zero. -/
def floorDivJS : ENum → ENum → ENum
  | .nan, _ => .nan
  | _, .nan => .nan
  | .fin a, .fin b =>
      if b = 0 then (if 0 < a then .posInf else if a < 0 then .negInf else .nan)
      else .fin (a.fdiv b)
  | .fin _, .posInf => .fin 0
  | .fin _, .negInf => .fin 0
  | .posInf, .fin b => if 0 ≤ b then .posInf else .negInf
  | .negInf, .fin b => if 0 ≤ b then .negInf else .posInf
  | .posInf, .posInf => .nan
  | .posInf, .negInf => .nan
  | .negInf, .posInf => .nan
  | .negInf, .negInf => .nan

/-- JavaScript `a % b`: remainder with the sign of the dividend
(truncated division).  A finite dividend with an infinite divisor is
returned unchanged; an infinite dividend or a zero divisor gives NaN. -/
def modJS : ENum → ENum → ENum
  | .nan, _ => .nan
  | _, .nan => .nan
  | .fin a, .fin b => if b = 0 then .nan else .fin (a.tmod b)
  | .fin a, .posInf => .fin a
  | .fin a, .negInf => .fin a
  | .posInf, _ => .nan
  | .negInf, _ => .nan

/-- JavaScript multiplication: `0 × ±∞ = NaN`, otherwise the usual sign
rules for infinities. -/
def mulJS : ENum → ENum → ENum
  | .nan, _ => .nan
  | _, .nan => .nan
  | .fin a, .fin b => .fin (a * b)
  | .fin a, .posInf => if a = 0 then .nan else if 0 < a then .posInf else .negInf
  | .fin a, .negInf => if a = 0 then .nan else if 0 < a then .negInf else .posInf
  | .posInf, .fin b => if b = 0 then .nan else if 0 < b then .posInf else .negInf
  | .negInf, .fin b => if b = 0 then .nan else if 0 < b then .negInf else .posInf
  | .posInf, .posInf => .posInf
  | .posInf, .negInf => .negInf
  | .negInf, .posInf => .negInf
  | .negInf, .negInf => .posInf

/-- JavaScript addition: `∞ + (-∞) = NaN`. -/
def addJS : ENum → ENum → ENum
  | .nan, _ => .nan
  | _, .nan => .nan
  | .fin a, .fin b => .fin (a + b)
  | .fin _, .posInf => .posInf
  | .fin _, .negInf => .negInf
  | .posInf, .fin _ => .posInf
  | .negInf, .fin _ => .negInf
  | .posInf, .posInf => .posInf
  | .posInf, .negInf => .nan
  | .negInf, .posInf => .nan
  | .negInf, .negInf => .negInf

end ENum

/-- A loosely-typed JavaScript value as it occurs in a deal record.
`str s c` is the string `s` whose `ToNumber` coercion is `c` (carried as
data; for a non-numeric string it is `ENum.nan`). -/
inductive JVal where
  | num (e : ENum)
  | str (s : String) (coerced : ENum)
  | undef
deriving DecidableEq, Repr

namespace JVal

/-- JavaScript `ToNumber` coercion (`undefined` coerces to NaN). -/
def toENum : JVal → ENum
  | .num e => e
  | .str _ c => c
  | .undef => .nan

/-- JavaScript `Number.isFinite(x)`: true only for an actual finite
number, with no coercion. -/
def isFiniteNum : JVal → Bool
  | .num (.fin _) => true
  | _ => false

/-- JavaScript strict equality `x === s` against a string literal. -/
def strictEqStr : JVal → String → Bool
  | .str s _, t => s == t
  | _, _ => false

/-- JavaScript truthiness. -/
def truthy : JVal → Bool
  | .num (.fin n) => n != 0
  | .num .nan => false
  | .num _ => true
  | .str s _ => s != ""
  | .undef => false

/-- JavaScript `String(x)` (template-literal interpolation). -/
def render : JVal → String
  | .num e => e.render
  | .str s _ => s
  | .undef => "undefined"

end JVal

/-- A deal record from a product's `deals` array: the three fields read
by the engine (`d.type`, `d.qty`, `d.pricePence`), each a loose
JavaScript value.  An entry of the `deals` array itself is an
`Option Deal`, with `none` standing for a null/undefined entry (dropped
by the `d &&` check). -/
structure Deal where
  type : JVal
  qty : JVal
  pricePence : JVal
deriving DecidableEq, Repr

/-- `GBP.format(e)` of `Intl.NumberFormat("en-GB", currency GBP)` where
`e` is pence divided by 100: renders `£` with two decimal digits (sign in
front).  Modelled rendering of the `Intl` formatter, used only inside
deal-note strings. -/
def gbpOfPence : ENum → String
  | .fin p =>
      (if p < 0 then "-£" else "£") ++ toString (p.natAbs / 100) ++ "." ++
        (if p.natAbs % 100 < 10 then "0" else "") ++ toString (p.natAbs % 100)
  | .posInf => "£∞"
  | .negInf => "-£∞"
  | .nan => "£NaN"

/-- `formatPence` from both source files: `GBP.format((p || 0) / 100)`.
`p || 0` replaces any falsy value by `0` before the division. -/
def formatPence (p : JVal) : String :=
  gbpOfPence (if p.truthy then p.toENum else .fin 0)

/-- The result of the deal pricing engine: the `{ totalPence, dealNote }`
object. -/
structure LineResult where
  totalPence : ENum
  dealNote : Option String
deriving DecidableEq, Repr

/-- The `{ totalPence: unitPricePence * qty, dealNote: null }` baseline. -/
def noDeal (u q : Int) : LineResult := ⟨.fin (u * q), none⟩

/-- The candidate total computed for one deal in the loop body shared by
both implementations (`App.jsx` lines 45-47, `part_000` lines 35-38):
`bundles * d.pricePence + remainder * unitPricePence` with
`bundles = Math.floor(qty / d.qty)` and `remainder = qty % d.qty`. -/
def candTotal (u q : Int) (d : Deal) : ENum :=
  ENum.addJS
    (ENum.mulJS (ENum.floorDivJS (.fin q) d.qty.toENum) d.pricePence.toENum)
    (ENum.mulJS (ENum.modJS (.fin q) d.qty.toENum) (.fin u))

/-- One iteration of the `for (const d of bundleDeals)` loop, identical
in both source files (`App.jsx` lines 44-55, `part_000` lines 34-46):
replace `best` only when the candidate total is strictly smaller. -/
def dealStep (u q : Int) (best : LineResult) (d : Deal) : LineResult :=
  let bundles := ENum.floorDivJS (.fin q) d.qty.toENum
  let total := candTotal u q d
  if ENum.ltJS total best.totalPence then
    { totalPence := total,
      dealNote :=
        if ENum.gtZeroJS bundles then
          some (d.qty.render ++ " for " ++ formatPence d.pricePence ++ " × " ++ bundles.render)
        else none }
  else best

/-- The deal filter of `App.jsx` line 34-36:
`d && d.type === "bundle" && Number.isFinite(d.qty) && d.qty > 0 &&
Number.isFinite(d.pricePence) && d.pricePence >= 0`. -/
def appDealOk : Option Deal → Bool
  | none => false
  | some d =>
      d.type.strictEqStr "bundle" && d.qty.isFiniteNum && ENum.gtZeroJS d.qty.toENum &&
        d.pricePence.isFiniteNum && ENum.geZeroJS d.pricePence.toENum

/-- The deal filter of `part_000` line 24:
`d && d.type === "bundle" && d.qty > 0 && d.pricePence >= 0`
(no finiteness checks, so coercing comparisons apply). -/
def partDealOk : Option Deal → Bool
  | none => false
  | some d =>
      d.type.strictEqStr "bundle" && ENum.gtZeroJS d.qty.toENum &&
        ENum.geZeroJS d.pricePence.toENum

/-- `deals.filter(...)` of `App.jsx` lines 34-36 (entries surviving the
filter are genuine deal records, so the result is a list of `Deal`). -/
def appBundleDeals (ds : List (Option Deal)) : List Deal :=
  ds.filterMap (fun d => if appDealOk d then d else none)

/-- `deals.filter(...)` of `part_000` line 24. -/
def partBundleDeals (ds : List (Option Deal)) : List Deal :=
  ds.filterMap (fun d => if partDealOk d then d else none)

/-- `bestLineTotalWithDeals` from `src/src/App.jsx` lines 29-58. -/
def bestLineTotalWithDeals (u q : Int) (deals : Option (List (Option Deal))) : LineResult :=
  match deals with
  | none => noDeal u q
  | some ds =>
      if ds.length = 0 ∨ q ≤ 0 then noDeal u q
      else
        let bundleDeals := appBundleDeals ds
        if bundleDeals.length = 0 then noDeal u q
        else bundleDeals.foldl (dealStep u q) (noDeal u q)

/-- `bestLineTotalWithDeals` from `src/unnamed/part_000` lines 17-49
(same algorithm, but with the weaker deal filter). -/
def bestLineTotalWithDeals_part000 (u q : Int) (deals : Option (List (Option Deal))) : LineResult :=
  match deals with
  | none => noDeal u q
  | some ds =>
      if ds.length = 0 ∨ q ≤ 0 then noDeal u q
      else
        let bundleDeals := partBundleDeals ds
        if bundleDeals.length = 0 then noDeal u q
        else bundleDeals.foldl (dealStep u q) (noDeal u q)

-- Sanity checks: scenarios A, B, C of the specification.
example :
    bestLineTotalWithDeals 290 3
      (some [some ⟨.str "bundle" .nan, .num (.fin 3), .num (.fin 700)⟩]) =
      ⟨.fin 700, some "3 for £7.00 × 1"⟩ := by decide

example :
    bestLineTotalWithDeals 290 4
      (some [some ⟨.str "bundle" .nan, .num (.fin 3), .num (.fin 700)⟩]) =
      ⟨.fin 990, some "3 for £7.00 × 1"⟩ := by decide

example :
    bestLineTotalWithDeals 700 5
      (some [some ⟨.str "bundle" .nan, .num (.fin 2), .num (.fin 1200)⟩]) =
      ⟨.fin 3100, some "2 for £12.00 × 2"⟩ := by decide

/-- A price band (`App.jsx` data model): id, display name, unit list and
unit-name → pence mapping (association list standing for the JS object,
keys unique by construction). -/
structure Band where
  id : String
  name : String
  units : List String
  pricesPence : List (String × Int)
deriving DecidableEq, Repr

/-- A product record.  `bandId`, `units`, `pricesPence` and `deals` are
optional fields of the loosely-typed JS object, `none` = absent. -/
structure Product where
  id : String
  name : String
  category : String
  bandId : Option String := none
  units : Option (List String) := none
  pricesPence : Option (List (String × Int)) := none
  deals : Option (List (Option Deal)) := none
deriving DecidableEq, Repr

/-- The `bandById` map (`App.jsx` lines 129-133): built by `Map.set` over
`state.bands`, so on duplicate ids the later band wins; lookup with an
absent `bandId` misses. -/
def bandById (bands : List Band) : Option String → Option Band
  | none => none
  | some bid => bands.reverse.find? (fun b => b.id == bid)

/-- Result of the catalog resolver: `{ units, pricesPence }`. -/
structure Resolved where
  units : List String
  pricesPence : List (String × Int)
deriving DecidableEq, Repr

/-- `resolveUnitsAndPrices` from `App.jsx` lines 160-170.  A present
`pricesPence`/`units` field is truthy in JS (objects and arrays are
truthy even when empty), which the `Option` match mirrors. -/
def resolveUnitsAndPrices (bands : List Band) (p : Product) : Resolved :=
  match p.pricesPence, p.units with
  | some prices, some units => ⟨units, prices⟩
  | _, _ =>
      match bandById bands p.bandId with
      | none => ⟨["One"], [("One", 0)]⟩
      | some b => ⟨b.units, b.pricesPence⟩

/-- A basket line (`App.jsx` line 103 and 210-217). -/
structure Line where
  key : String
  productId : String
  label : String
  unit : String
  pricePence : Int
  qty : Int
deriving DecidableEq, Repr

/-- `pricesPence[unit] ?? 0` (`App.jsx` line 194): property access on the
resolved price object, defaulting a missing unit to 0. -/
def resolvedPrice (bands : List Band) (p : Product) (unit : String) : Int :=
  (((resolveUnitsAndPrices bands p).pricesPence.find? (fun kv => kv.1 == unit)).map
    Prod.snd).getD 0

/-- The grouping predicate of `App.jsx` lines 199-201: same product id,
unit and unit price. -/
def lineMatches (p : Product) (unit : String) (price : Int) (l : Line) : Bool :=
  l.productId == p.id && l.unit == unit && l.pricePence == price

/-- JavaScript `Array.prototype.findIndex` (`none` for -1): index of the
first element satisfying `p`. -/
def findIndexAux (p : Line → Bool) : List Line → Nat → Option Nat
  | [], _ => none
  | x :: r, i => if p x then some i else findIndexAux p r (i + 1)

/-- JavaScript `basket.findIndex(p)` with -1 mapped to `none`. -/
def jsFindIndex (p : Line → Bool) (b : List Line) : Option Nat :=
  findIndexAux p b 0

/-- JavaScript `Array.prototype.map((l, i) => ...)` with the element
index. -/
def mapWithIdxAux (f : Nat → Line → Line) : Nat → List Line → List Line
  | _, [] => []
  | i, x :: r => f i x :: mapWithIdxAux f (i + 1) r

/-- `basket.map((l, i) => ...)`. -/
def mapWithIdx (f : Nat → Line → Line) (b : List Line) : List Line :=
  mapWithIdxAux f 0 b

/-- The fresh line built at `App.jsx` lines 210-217 (`uid()` is a random
key, passed in as `newKey`; the label is built at line 196). -/
def freshLine (p : Product) (unit : String) (price : Int) (newKey : String) : Line :=
  { key := newKey
    productId := p.id
    label := if unit == "One" then p.name else p.name ++ " (" ++ unit ++ ")"
    unit := unit
    pricePence := price
    qty := 1 }

/-- `addToBasket` from `App.jsx` lines 192-220, as the new basket value
(`setBasket`/`setLastAddKey` are the surrounding state plumbing). -/
def addToBasket (bands : List Band) (basket : List Line) (p : Product) (unit : String)
    (newKey : String) : List Line :=
  let pricePence := resolvedPrice bands p unit
  match jsFindIndex (lineMatches p unit pricePence) basket with
  | some i => mapWithIdx (fun j l => if j == i then { l with qty := l.qty + 1 } else l) basket
  | none => basket ++ [freshLine p unit pricePence newKey]

/-- `incQty` from `App.jsx` lines 222-224. -/
def incQty (key : String) (b : List Line) : List Line :=
  b.map (fun l => if l.key == key then { l with qty := l.qty + 1 } else l)

/-- `decQty` from `App.jsx` lines 226-232: decrement the keyed line, then
drop any line whose quantity is not positive. -/
def decQty (key : String) (b : List Line) : List Line :=
  (b.map (fun l => if l.key == key then { l with qty := l.qty - 1 } else l)).filter
    (fun l => decide (0 < l.qty))

/-- `removeLine` from `App.jsx` lines 234-236. -/
def removeLine (key : String) (b : List Line) : List Line :=
  b.filter (fun l => l.key != key)

/-- The (product id, unit, price) triple that keys basket lines. -/
def tripleOf (l : Line) : String × String × Int :=
  (l.productId, l.unit, l.pricePence)

/-! ## Helper lemmas about the deal filter -/

lemma filterIf_eq_some {f : Option Deal → Bool} {a : Option Deal} {dl : Deal} :
    (if f a then a else none) = some dl ↔ a = some dl ∧ f (some dl) = true := by
  by_cases h : f a = true
  · simp only [h, if_pos]
    constructor
    · intro ha; exact ⟨ha, ha ▸ h⟩
    · intro ⟨ha, _⟩; exact ha
  · simp only [Bool.not_eq_true] at h
    simp only [h, Bool.false_eq_true, if_false]
    constructor
    · intro hc; exact absurd hc (by simp)
    · intro ⟨ha, hf⟩; rw [ha] at h; rw [hf] at h; exact absurd h (by simp)

lemma strictEqStr_bundle_iff (v : JVal) :
    v.strictEqStr "bundle" = true ↔ ∃ c, v = JVal.str "bundle" c := by
  cases v with
  | num e => simp [JVal.strictEqStr]
  | str s c =>
      simp only [JVal.strictEqStr, beq_iff_eq]
      constructor
      · intro h; exact ⟨c, by rw [h]⟩
      · rintro ⟨c', h⟩
        cases h
        rfl
  | undef => simp [JVal.strictEqStr]

lemma finite_gtZero_iff (v : JVal) :
    (v.isFiniteNum = true ∧ ENum.gtZeroJS v.toENum = true) ↔
      ∃ n : Int, v = JVal.num (.fin n) ∧ 0 < n := by
  cases v with
  | num e =>
      cases e with
      | fin n => simp [JVal.isFiniteNum, JVal.toENum, ENum.gtZeroJS]
      | posInf => simp [JVal.isFiniteNum]
      | negInf => simp [JVal.isFiniteNum]
      | nan => simp [JVal.isFiniteNum]
  | str s c => simp [JVal.isFiniteNum]
  | undef => simp [JVal.isFiniteNum]

lemma finite_geZero_iff (v : JVal) :
    (v.isFiniteNum = true ∧ ENum.geZeroJS v.toENum = true) ↔
      ∃ m : Int, v = JVal.num (.fin m) ∧ 0 ≤ m := by
  cases v with
  | num e =>
      cases e with
      | fin n => simp [JVal.isFiniteNum, JVal.toENum, ENum.geZeroJS]
      | posInf => simp [JVal.isFiniteNum]
      | negInf => simp [JVal.isFiniteNum]
      | nan => simp [JVal.isFiniteNum]
  | str s c => simp [JVal.isFiniteNum]
  | undef => simp [JVal.isFiniteNum]

lemma appDealOk_iff (dl : Deal) :
    appDealOk (some dl) = true ↔
      (∃ c, dl.type = JVal.str "bundle" c) ∧
      (∃ n : Int, dl.qty = JVal.num (.fin n) ∧ 0 < n) ∧
      (∃ m : Int, dl.pricePence = JVal.num (.fin m) ∧ 0 ≤ m) := by
  rw [show appDealOk (some dl) =
        (dl.type.strictEqStr "bundle" &&
          ((dl.qty.isFiniteNum && ENum.gtZeroJS dl.qty.toENum) &&
            (dl.pricePence.isFiniteNum && ENum.geZeroJS dl.pricePence.toENum))) from by
      simp [appDealOk, Bool.and_assoc]]
  simp only [Bool.and_eq_true]
  rw [strictEqStr_bundle_iff, finite_gtZero_iff, finite_geZero_iff]

/-- The entries kept by the App.jsx filter all satisfy the filter
predicate. -/
lemma appBundleDeals_ok (ds : List (Option Deal)) :
    ∀ d ∈ appBundleDeals ds, appDealOk (some d) = true := by
  intro d hd
  obtain ⟨a, _, hfa⟩ := List.mem_filterMap.mp hd
  exact (filterIf_eq_some.mp hfa).2

/-- C1: the deal filter of `bestLineTotalWithDeals` keeps exactly the
entries whose tag is `"bundle"`, whose trigger quantity is a finite
number strictly greater than 0 and whose bundle price is a finite number
at least 0; every other entry (null, unrecognized tag, non-numeric or
non-finite fields) is dropped.  The filter is a total function, so no
error can be raised while filtering. -/
theorem appBundleDeals_mem_iff (deals : List (Option Deal)) (dl : Deal) :
    dl ∈ appBundleDeals deals ↔
      some dl ∈ deals ∧
      (∃ c, dl.type = JVal.str "bundle" c) ∧
      (∃ n : Int, dl.qty = JVal.num (.fin n) ∧ 0 < n) ∧
      (∃ m : Int, dl.pricePence = JVal.num (.fin m) ∧ 0 ≤ m) := by
  rw [← appDealOk_iff, and_comm (b := appDealOk (some dl) = true)]
  unfold appBundleDeals
  rw [List.mem_filterMap]
  constructor
  · intro ⟨a, ha, hfa⟩
    obtain ⟨rfl, hok⟩ := filterIf_eq_some.mp hfa
    exact ⟨hok, ha⟩
  · intro ⟨hok, hmem⟩
    exact ⟨some dl, hmem, filterIf_eq_some.mpr ⟨rfl, hok⟩⟩

/-- C4: for any unit price, whenever the quantity is ≤ 0 or the deals
list is absent or empty, `bestLineTotalWithDeals` returns exactly
`unitPricePence * qty` with no deal note. -/
theorem bestLineTotal_baseline (u q : Int) (deals : Option (List (Option Deal)))
    (h : q ≤ 0 ∨ deals = none ∨ deals = some []) :
    bestLineTotalWithDeals u q deals = ⟨.fin (u * q), none⟩ := by
  rcases h with hq | hnone | hempty
  · cases deals with
    | none => rfl
    | some ds =>
        simp only [bestLineTotalWithDeals]
        rw [if_pos (Or.inr hq)]
        rfl
  · rw [hnone]; rfl
  · rw [hempty]
    simp only [bestLineTotalWithDeals]
    rw [if_pos (Or.inl (List.length_nil))]
    rfl

/-- C4 witness. -/
theorem bestLineTotal_baseline_witness :
    bestLineTotalWithDeals 290 0
        (some [some ⟨.str "bundle" .nan, .num (.fin 3), .num (.fin 700)⟩]) =
      ⟨.fin 0, none⟩ := by
  have h := bestLineTotal_baseline 290 0
    (some [some ⟨.str "bundle" .nan, .num (.fin 3), .num (.fin 700)⟩])
    (Or.inl (by decide))
  rw [h]; decide

/-- C5: a product carrying both a non-empty unit list and a non-empty
price mapping of its own resolves to exactly those, with the band list
(and hence any band reference) having no influence: `bands` is
universally quantified and absent from the result. -/
theorem resolveUnitsAndPrices_override (bands : List Band) (p : Product)
    (us : List String) (prs : List (String × Int))
    (hu : p.units = some us) (hp : p.pricesPence = some prs)
    (hune : us ≠ []) (hpne : prs ≠ []) :
    resolveUnitsAndPrices bands p = ⟨us, prs⟩ := by
  unfold resolveUnitsAndPrices
  rw [hp, hu]

/-- C5 witness. -/
theorem resolveUnitsAndPrices_override_witness :
    resolveUnitsAndPrices
        [⟨"band-premium", "Premium Spirits", ["Single"], [("Single", 450)]⟩]
        { id := "p-guin", name := "Guinness", category := "Draft",
          bandId := some "band-premium",
          units := some ["Half", "Pint"],
          pricesPence := some [("Half", 340), ("Pint", 660)] } =
      ⟨["Half", "Pint"], [("Half", 340), ("Pint", 660)]⟩ :=
  resolveUnitsAndPrices_override _ _ _ _ rfl rfl (by decide) (by decide)

/-- C6: a product that does not carry both its own unit list and price
mapping, and whose band reference does not resolve, falls back to the
single unit `"One"` priced 0 (a total function: no error raised). -/
theorem resolveUnitsAndPrices_fallback (bands : List Band) (p : Product)
    (hno : ¬(p.pricesPence.isSome = true ∧ p.units.isSome = true))
    (hb : bandById bands p.bandId = none) :
    resolveUnitsAndPrices bands p = ⟨["One"], [("One", 0)]⟩ := by
  unfold resolveUnitsAndPrices
  cases hp : p.pricesPence with
  | some prs =>
      cases hu : p.units with
      | some us => exact absurd ⟨by rw [hp]; rfl, by rw [hu]; rfl⟩ hno
      | none => rw [hb]
  | none => cases hu : p.units <;> rw [hb]

/-- C6 witness. -/
theorem resolveUnitsAndPrices_fallback_witness :
    resolveUnitsAndPrices
        [⟨"band-premium", "Premium Spirits", ["Single"], [("Single", 450)]⟩]
        { id := "p-gin1", name := "Tanqueray", category := "Spirits",
          bandId := some "band-missing" } =
      ⟨["One"], [("One", 0)]⟩ :=
  resolveUnitsAndPrices_fallback _ _ (by decide) (by decide)

/-! ## Loop invariants of the deal scan (claims C2 and C7) -/

/-- A deal accepted by the App.jsx filter has a finite positive trigger
quantity and a finite non-negative price after coercion. -/
lemma appDealOk_dest {dl : Deal} (h : appDealOk (some dl) = true) :
    ∃ n m : Int, dl.qty.toENum = .fin n ∧ 0 < n ∧
      dl.pricePence.toENum = .fin m ∧ 0 ≤ m := by
  obtain ⟨_, ⟨n, hn, hn0⟩, ⟨m, hm, hm0⟩⟩ := (appDealOk_iff dl).mp h
  exact ⟨n, m, by rw [hn]; rfl, hn0, by rw [hm]; rfl, hm0⟩

/-- When the trigger quantity coerces to a finite positive `n` and the
price to a finite `m`, the candidate total is the integer
`(q fdiv n) * m + (q tmod n) * u`. -/
lemma candTotal_eq {u q : Int} {dl : Deal} {n m : Int}
    (hn : dl.qty.toENum = .fin n) (hn0 : 0 < n)
    (hm : dl.pricePence.toENum = .fin m) :
    candTotal u q dl = .fin (q.fdiv n * m + q.tmod n * u) := by
  unfold candTotal
  rw [hn, hm]
  simp [ENum.floorDivJS, ENum.modJS, ENum.mulJS, ENum.addJS, hn0.ne']

/-- Invariant of the `for` loop over the filtered deals: starting from a
finite best total `t`, the final best total is a finite `t' ≤ t`, and is
non-negative whenever the unit price and `t` are. -/
lemma foldl_dealStep_invariant (u q : Int) (hq : 1 ≤ q) :
    ∀ ds : List Deal, (∀ d ∈ ds, appDealOk (some d) = true) →
      ∀ (best : LineResult) (t : Int), best.totalPence = .fin t →
        ∃ t', (ds.foldl (dealStep u q) best).totalPence = .fin t' ∧ t' ≤ t ∧
          (0 ≤ u → 0 ≤ t → 0 ≤ t') := by
  intro ds
  induction ds with
  | nil =>
      intro _ best t ht
      exact ⟨t, ht, le_refl t, fun _ h => h⟩
  | cons d rest ih =>
      intro hall best t ht
      have hd := hall d (List.mem_cons_self d rest)
      obtain ⟨n, m, hn, hn0, hm, hm0⟩ := appDealOk_dest hd
      have hcand : candTotal u q d = .fin (q.fdiv n * m + q.tmod n * u) :=
        candTotal_eq hn hn0 hm
      have hrest : ∀ x ∈ rest, appDealOk (some x) = true :=
        fun x hx => hall x (List.mem_cons_of_mem d hx)
      have hs_nonneg : 0 ≤ u → 0 ≤ q.fdiv n * m + q.tmod n * u := by
        intro hu
        have h1 : 0 ≤ q.fdiv n := Int.fdiv_nonneg (by omega) (by omega)
        have h2 : 0 ≤ q.tmod n := Int.tmod_nonneg n (by omega)
        exact add_nonneg (mul_nonneg h1 hm0) (mul_nonneg h2 hu)
      rw [List.foldl_cons]
      by_cases hlt : q.fdiv n * m + q.tmod n * u < t
      · have hstep : (dealStep u q best d).totalPence = .fin (q.fdiv n * m + q.tmod n * u) := by
          unfold dealStep
          rw [hcand, ht]
          simp [ENum.ltJS, hlt]
        obtain ⟨t', h1, h2, h3⟩ := ih hrest (dealStep u q best d) _ hstep
        exact ⟨t', h1, h2.trans hlt.le, fun hu _ => h3 hu (hs_nonneg hu)⟩
      · have hstep : dealStep u q best d = best := by
          unfold dealStep
          rw [hcand, ht]
          simp [ENum.ltJS, hlt]
        rw [hstep]
        exact ih hrest best t ht

/-- C2: for a non-negative unit price, any integer quantity and any
deals list, the total returned by `bestLineTotalWithDeals` is a finite
value that never exceeds the no-deal baseline `unitPricePence * qty`. -/
theorem bestLineTotal_le_baseline (u q : Int) (deals : Option (List (Option Deal)))
    (hu : 0 ≤ u) :
    ∃ t : Int, (bestLineTotalWithDeals u q deals).totalPence = .fin t ∧ t ≤ u * q := by
  cases deals with
  | none => exact ⟨u * q, rfl, le_refl _⟩
  | some ds =>
      simp only [bestLineTotalWithDeals]
      by_cases hg : ds.length = 0 ∨ q ≤ 0
      · rw [if_pos hg]; exact ⟨u * q, rfl, le_refl _⟩
      · rw [if_neg hg]
        have hq : 1 ≤ q := by omega
        by_cases hb : (appBundleDeals ds).length = 0
        · rw [if_pos hb]; exact ⟨u * q, rfl, le_refl _⟩
        · rw [if_neg hb]
          obtain ⟨t', h1, h2, _⟩ :=
            foldl_dealStep_invariant u q hq (appBundleDeals ds) (appBundleDeals_ok ds)
              (noDeal u q) (u * q) rfl
          exact ⟨t', h1, h2⟩

/-- C2 witness. -/
theorem bestLineTotal_le_baseline_witness :
    ∃ t : Int,
      (bestLineTotalWithDeals 290 4
          (some [some ⟨.str "bundle" .nan, .num (.fin 3), .num (.fin 700)⟩])).totalPence =
        .fin t ∧ t ≤ 290 * 4 :=
  bestLineTotal_le_baseline 290 4
    (some [some ⟨.str "bundle" .nan, .num (.fin 3), .num (.fin 700)⟩]) (by decide)

/-- C7: `bestLineTotalWithDeals` is a total function (the embedding of
"never raises"), its total is always a finite number, and that number is
non-negative whenever the unit price and the quantity are non-negative —
for every deals list, malformed entries included. -/
theorem bestLineTotal_safe (u q : Int) (deals : Option (List (Option Deal))) :
    ∃ t : Int, (bestLineTotalWithDeals u q deals).totalPence = .fin t ∧
      (0 ≤ u → 0 ≤ q → 0 ≤ t) := by
  cases deals with
  | none => exact ⟨u * q, rfl, fun hu hq => mul_nonneg hu hq⟩
  | some ds =>
      simp only [bestLineTotalWithDeals]
      by_cases hg : ds.length = 0 ∨ q ≤ 0
      · rw [if_pos hg]; exact ⟨u * q, rfl, fun hu hq => mul_nonneg hu hq⟩
      · rw [if_neg hg]
        have hq : 1 ≤ q := by omega
        by_cases hb : (appBundleDeals ds).length = 0
        · rw [if_pos hb]; exact ⟨u * q, rfl, fun hu hq => mul_nonneg hu hq⟩
        · rw [if_neg hb]
          obtain ⟨t', h1, _, h3⟩ :=
            foldl_dealStep_invariant u q hq (appBundleDeals ds) (appBundleDeals_ok ds)
              (noDeal u q) (u * q) rfl
          exact ⟨t', h1, fun hu hqn => h3 hu (mul_nonneg hu hqn)⟩

/-- C7 witness (deals list containing a null entry, a wrong tag, a
negative trigger and a NaN price — all dropped, result non-negative). -/
theorem bestLineTotal_safe_witness :
    ∃ t : Int,
      (bestLineTotalWithDeals 290 3
          (some [none,
                 some ⟨.str "loyalty" .nan, .num (.fin 3), .num (.fin 700)⟩,
                 some ⟨.str "bundle" .nan, .num (.fin (-2)), .num (.fin 700)⟩,
                 some ⟨.str "bundle" .nan, .num (.fin 3), .num .nan⟩])).totalPence =
        .fin t ∧ (0 ≤ (290 : Int) → 0 ≤ (3 : Int) → 0 ≤ t) :=
  bestLineTotal_safe 290 3
    (some [none,
           some ⟨.str "loyalty" .nan, .num (.fin 3), .num (.fin 700)⟩,
           some ⟨.str "bundle" .nan, .num (.fin (-2)), .num (.fin 700)⟩,
           some ⟨.str "bundle" .nan, .num (.fin 3), .num .nan⟩])

/-! ## Tie-break (claim C3) -/

/-- JavaScript `<` is irreflexive (also on NaN and the infinities). -/
lemma ltJS_irrefl (e : ENum) : ENum.ltJS e e = false := by
  cases e <;> simp [ENum.ltJS]

/-- A candidate total equal to the current best never replaces it: the
loop body leaves `best` unchanged on a tie. -/
lemma dealStep_tie (u q : Int) (best : LineResult) (d : Deal)
    (h : best.totalPence = candTotal u q d) :
    dealStep u q best d = best := by
  simp only [dealStep]
  rw [h, ltJS_irrefl]
  simp

/-- C3: given two well-formed bundle deals with equal candidate totals
for the given quantity, the engine returns the result of the first deal
in list order — the second (tying) deal never replaces it; moreover a
tying candidate never replaces the current best in a loop step. -/
theorem bestLineTotal_tie_first_wins (u q : Int) (d1 d2 : Deal)
    (h1 : appDealOk (some d1) = true) (h2 : appDealOk (some d2) = true)
    (heq : candTotal u q d1 = candTotal u q d2) :
    bestLineTotalWithDeals u q (some [some d1, some d2]) =
      bestLineTotalWithDeals u q (some [some d1]) ∧
    (∀ best : LineResult, best.totalPence = candTotal u q d2 →
      dealStep u q best d2 = best) := by
  refine ⟨?_, fun best hb => dealStep_tie u q best d2 hb⟩
  by_cases hq : q ≤ 0
  · simp only [bestLineTotalWithDeals]
    rw [if_pos (Or.inr hq), if_pos (Or.inr hq)]
  · have hc2 : ¬([some d1, some d2].length = 0 ∨ q ≤ 0) := by
      simp only [List.length_cons, List.length_nil]
      omega
    have hc1 : ¬([some d1].length = 0 ∨ q ≤ 0) := by
      simp only [List.length_cons, List.length_nil]
      omega
    have hfilt2 : appBundleDeals [some d1, some d2] = [d1, d2] := by
      simp [appBundleDeals, List.filterMap, h1, h2]
    have hfilt1 : appBundleDeals [some d1] = [d1] := by
      simp [appBundleDeals, List.filterMap, h1]
    simp only [bestLineTotalWithDeals]
    rw [if_neg hc2, if_neg hc1]
    simp only [hfilt1, hfilt2]
    rw [if_neg (by simp), if_neg (by simp)]
    simp only [List.foldl_cons, List.foldl_nil]
    by_cases hlt : ENum.ltJS (candTotal u q d1) (noDeal u q).totalPence = true
    · have hstep : (dealStep u q (noDeal u q) d1).totalPence = candTotal u q d1 := by
        simp only [dealStep]
        rw [if_pos hlt]
      exact dealStep_tie u q _ d2 (hstep.trans heq)
    · rw [Bool.not_eq_true] at hlt
      have hstep : dealStep u q (noDeal u q) d1 = noDeal u q := by
        simp only [dealStep]
        rw [hlt]
        simp
      rw [hstep]
      have hlt2 : ENum.ltJS (candTotal u q d2) (noDeal u q).totalPence = false := by
        rw [← heq]; exact hlt
      simp only [dealStep]
      rw [hlt2]
      simp

/-- C3 witness (two identical "3 for £7.00" deals at quantity 3). -/
theorem bestLineTotal_tie_first_wins_witness :
    bestLineTotalWithDeals 290 3
        (some [some ⟨.str "bundle" .nan, .num (.fin 3), .num (.fin 700)⟩,
               some ⟨.str "bundle" .nan, .num (.fin 3), .num (.fin 700)⟩]) =
      bestLineTotalWithDeals 290 3
        (some [some ⟨.str "bundle" .nan, .num (.fin 3), .num (.fin 700)⟩]) :=
  (bestLineTotal_tie_first_wins 290 3
      ⟨.str "bundle" .nan, .num (.fin 3), .num (.fin 700)⟩
      ⟨.str "bundle" .nan, .num (.fin 3), .num (.fin 700)⟩
      (by decide) (by decide) rfl).1

/-! ## The two implementations of `bestLineTotalWithDeals` (claim C8) -/

/-- The two implementations disagree: a deal whose trigger quantity is
the *string* `"2"` (which coerces to the number 2) is rejected by the
`Number.isFinite` check of the App.jsx filter but accepted by the
coercing `d.qty > 0` comparison of the part_000 filter, which then
applies the bundle price. -/
theorem bestLineTotal_impls_differ :
    bestLineTotalWithDeals 100 4
        (some [some ⟨.str "bundle" .nan, .str "2" (.fin 2), .num (.fin 100)⟩]) ≠
      bestLineTotalWithDeals_part000 100 4
        (some [some ⟨.str "bundle" .nan, .str "2" (.fin 2), .num (.fin 100)⟩]) := by
  intro h
  have h400 : (bestLineTotalWithDeals 100 4
      (some [some ⟨.str "bundle" .nan, .str "2" (.fin 2), .num (.fin 100)⟩])).totalPence =
      ENum.fin 400 := by decide
  have h200 : (bestLineTotalWithDeals_part000 100 4
      (some [some ⟨.str "bundle" .nan, .str "2" (.fin 2), .num (.fin 100)⟩])).totalPence =
      ENum.fin 200 := by decide
  rw [h, h200] at h400
  exact absurd h400 (by decide)

/-- On a deal whose `qty` and `pricePence` fields are actual finite
numbers, the two filters agree (`Number.isFinite` is then true and both
comparisons read the same integers). -/
lemma dealOk_agree {dl : Deal} (hn : ∃ n : Int, dl.qty = JVal.num (.fin n))
    (hm : ∃ m : Int, dl.pricePence = JVal.num (.fin m)) :
    appDealOk (some dl) = partDealOk (some dl) := by
  obtain ⟨n, hn⟩ := hn
  obtain ⟨m, hm⟩ := hm
  simp [appDealOk, partDealOk, hn, hm, JVal.isFiniteNum, JVal.toENum]

/-- C8 (amended): on every input whose deal entries carry finite
JavaScript numbers in their `qty` and `pricePence` fields, the two
implementations return the same total and the same deal note. -/
theorem bestLineTotal_impls_agree (u q : Int) (deals : Option (List (Option Deal)))
    (h : ∀ ds, deals = some ds → ∀ d ∈ ds, ∀ dl : Deal, d = some dl →
      (∃ n : Int, dl.qty = JVal.num (.fin n)) ∧
      (∃ m : Int, dl.pricePence = JVal.num (.fin m))) :
    bestLineTotalWithDeals u q deals = bestLineTotalWithDeals_part000 u q deals := by
  cases deals with
  | none => rfl
  | some ds =>
      have hfilt : appBundleDeals ds = partBundleDeals ds := by
        unfold appBundleDeals partBundleDeals
        apply List.filterMap_congr
        intro d hd
        cases d with
        | none => rfl
        | some dl =>
            obtain ⟨hn, hm⟩ := h ds rfl (some dl) hd dl rfl
            rw [dealOk_agree hn hm]
      simp only [bestLineTotalWithDeals, bestLineTotalWithDeals_part000]
      rw [hfilt]

/-- C8 amended-claim witness: a genuine numeric deal evaluated by both
implementations. -/
theorem bestLineTotal_impls_agree_witness :
    bestLineTotalWithDeals 290 4
        (some [some ⟨.str "bundle" .nan, .num (.fin 3), .num (.fin 700)⟩]) =
      bestLineTotalWithDeals_part000 290 4
        (some [some ⟨.str "bundle" .nan, .num (.fin 3), .num (.fin 700)⟩]) :=
  bestLineTotal_impls_agree 290 4
    (some [some ⟨.str "bundle" .nan, .num (.fin 3), .num (.fin 700)⟩])
    (by
      intro ds hds d hd dl hdl
      cases hds
      simp only [List.mem_cons, List.not_mem_nil, or_false] at hd
      cases hd
      cases hdl
      exact ⟨⟨3, rfl⟩, ⟨700, rfl⟩⟩)

/-! ## Basket helper lemmas (claims C9 and C10) -/

lemma findIndexAux_none_iff (p : Line → Bool) :
    ∀ (b : List Line) (k : Nat), findIndexAux p b k = none ↔ ∀ l ∈ b, p l = false := by
  intro b
  induction b with
  | nil => intro k; simp [findIndexAux]
  | cons x r ih =>
      intro k
      by_cases hx : p x = true
      · simp [findIndexAux, hx]
      · rw [Bool.not_eq_true] at hx
        simp [findIndexAux, hx, ih (k + 1)]

lemma findIndexAux_first_match (p : Line → Bool) (x : Line) (post : List Line)
    (hx : p x = true) :
    ∀ (pre : List Line) (k : Nat), (∀ y ∈ pre, p y = false) →
      findIndexAux p (pre ++ x :: post) k = some (k + pre.length) := by
  intro pre
  induction pre with
  | nil => intro k _; simp [findIndexAux, hx]
  | cons y pre ih =>
      intro k hall
      have hy : p y = false := hall y (List.mem_cons_self y pre)
      have hrest : ∀ z ∈ pre, p z = false := fun z hz => hall z (List.mem_cons_of_mem y hz)
      simp only [List.cons_append, findIndexAux, hy, Bool.false_eq_true, if_false,
        List.append_eq]
      rw [ih (k + 1) hrest]
      congr 1
      simp only [List.length_cons]
      omega

lemma mapWithIdxAux_skip (g : Line → Line) (i : Nat) :
    ∀ (post : List Line) (k : Nat), i < k →
      mapWithIdxAux (fun j l => if j == i then g l else l) k post = post := by
  intro post
  induction post with
  | nil => intro k _; rfl
  | cons z r ih =>
      intro k hk
      have hki : (k == i) = false := by
        rw [beq_eq_false_iff_ne]
        omega
      simp only [mapWithIdxAux, hki, Bool.false_eq_true, if_false]
      rw [ih (k + 1) (by omega)]

lemma mapWithIdxAux_at (g : Line → Line) (x : Line) (post : List Line) :
    ∀ (pre : List Line) (k i : Nat), i = k + pre.length →
      mapWithIdxAux (fun j l => if j == i then g l else l) k (pre ++ x :: post) =
        pre ++ g x :: post := by
  intro pre
  induction pre with
  | nil =>
      intro k i hi
      simp only [List.length_nil, Nat.add_zero] at hi
      subst hi
      simp only [List.nil_append, mapWithIdxAux, beq_self_eq_true, if_true]
      rw [mapWithIdxAux_skip g i post (i + 1) (by omega)]
  | cons y pre ih =>
      intro k i hi
      simp only [List.length_cons] at hi
      have hki : (k == i) = false := by
        rw [beq_eq_false_iff_ne]
        omega
      simp only [List.cons_append, mapWithIdxAux, hki, Bool.false_eq_true, if_false,
        List.append_eq]
      rw [ih (k + 1) i (by omega)]

lemma first_match_decomp (p : Line → Bool) :
    ∀ b : List Line, (∀ l ∈ b, p l = false) ∨
      ∃ pre x post, b = pre ++ x :: post ∧ (∀ y ∈ pre, p y = false) ∧ p x = true := by
  intro b
  induction b with
  | nil => exact Or.inl (by simp)
  | cons z r ih =>
      by_cases hz : p z = true
      · exact Or.inr ⟨[], z, r, rfl, by simp, hz⟩
      · rw [Bool.not_eq_true] at hz
        rcases ih with hall | ⟨pre, x, post, hb, hpre, hx⟩
        · refine Or.inl ?_
          intro l hl
          rcases List.mem_cons.mp hl with rfl | hl
          · exact hz
          · exact hall l hl
        · refine Or.inr ⟨z :: pre, x, post, by rw [hb]; rfl, ?_, hx⟩
          intro y hy
          rcases List.mem_cons.mp hy with rfl | hy
          · exact hz
          · exact hpre y hy

lemma mem_mapWithIdxAux (f : Nat → Line → Line) :
    ∀ (b : List Line) (k : Nat) (l : Line),
      l ∈ mapWithIdxAux f k b → ∃ j l0, l0 ∈ b ∧ l = f j l0 := by
  intro b
  induction b with
  | nil => intro k l h; exact absurd h (by simp [mapWithIdxAux])
  | cons x r ih =>
      intro k l h
      simp only [mapWithIdxAux, List.mem_cons] at h
      rcases h with rfl | h
      · exact ⟨k, x, List.mem_cons_self x r, rfl⟩
      · obtain ⟨j, l0, hl0, hl⟩ := ih (k + 1) l h
        exact ⟨j, l0, List.mem_cons_of_mem x hl0, hl⟩

lemma lineMatches_iff_triple (p : Product) (unit : String) (price : Int) (l : Line) :
    lineMatches p unit price l = true ↔ tripleOf l = (p.id, unit, price) := by
  simp [lineMatches, tripleOf, Prod.ext_iff, and_assoc]

/-- C9: basket lines are keyed by (product id, unit, unit price).  If no
line with the triple exists, `addToBasket` appends a fresh line with
quantity 1; if one exists, the first such line has its quantity
incremented and nothing is appended; and the at-most-one-line-per-triple
invariant is preserved.  Two adds separated by a price edit fall into
the append branch because the price component of the triple differs. -/
theorem addToBasket_grouping (bands : List Band) (basket : List Line) (p : Product)
    (unit newKey : String) (price : Int) (hp : price = resolvedPrice bands p unit) :
    ((∀ l ∈ basket, lineMatches p unit price l = false) →
        addToBasket bands basket p unit newKey =
          basket ++ [freshLine p unit price newKey]) ∧
    (∀ pre x post, basket = pre ++ x :: post →
        (∀ y ∈ pre, lineMatches p unit price y = false) →
        lineMatches p unit price x = true →
        addToBasket bands basket p unit newKey =
          pre ++ { x with qty := x.qty + 1 } :: post) ∧
    (List.Pairwise (fun a b => tripleOf a ≠ tripleOf b) basket →
        List.Pairwise (fun a b => tripleOf a ≠ tripleOf b)
          (addToBasket bands basket p unit newKey)) := by
  subst hp
  have happend : (∀ l ∈ basket,
        lineMatches p unit (resolvedPrice bands p unit) l = false) →
      addToBasket bands basket p unit newKey =
        basket ++ [freshLine p unit (resolvedPrice bands p unit) newKey] := by
    intro hall
    have hnone : jsFindIndex (lineMatches p unit (resolvedPrice bands p unit)) basket = none :=
      (findIndexAux_none_iff _ basket 0).mpr hall
    simp only [addToBasket, hnone]
  have hinc : ∀ pre x post, basket = pre ++ x :: post →
      (∀ y ∈ pre, lineMatches p unit (resolvedPrice bands p unit) y = false) →
      lineMatches p unit (resolvedPrice bands p unit) x = true →
      addToBasket bands basket p unit newKey =
        pre ++ { x with qty := x.qty + 1 } :: post := by
    intro pre x post hb hpre hx
    have hsome : jsFindIndex (lineMatches p unit (resolvedPrice bands p unit)) basket =
        some pre.length := by
      rw [hb]
      unfold jsFindIndex
      rw [findIndexAux_first_match _ x post hx pre 0 hpre]
      rw [Nat.zero_add]
    simp only [addToBasket, hsome]
    rw [hb]
    exact mapWithIdxAux_at _ x post pre 0 pre.length (by omega)
  refine ⟨happend, hinc, ?_⟩
  intro hpw
  rcases first_match_decomp (lineMatches p unit (resolvedPrice bands p unit)) basket with
    hall | ⟨pre, x, post, hb, hpre, hx⟩
  · rw [happend hall]
    rw [List.pairwise_append]
    refine ⟨hpw, List.pairwise_singleton _ _, ?_⟩
    intro a ha b hbmem
    simp only [List.mem_singleton] at hbmem
    subst hbmem
    have hfa : lineMatches p unit (resolvedPrice bands p unit) a = false := hall a ha
    show tripleOf a ≠ (p.id, unit, resolvedPrice bands p unit)
    intro hcon
    have htrue := (lineMatches_iff_triple p unit (resolvedPrice bands p unit) a).mpr hcon
    rw [htrue] at hfa
    exact absurd hfa (by decide)
  · rw [hinc pre x post hb hpre hx]
    have hmap : (pre ++ { x with qty := x.qty + 1 } :: post).map tripleOf =
        (pre ++ x :: post).map tripleOf := by
      simp [tripleOf]
    have h1 : ((pre ++ x :: post).map tripleOf).Pairwise Ne :=
      List.pairwise_map.mpr (hb ▸ hpw)
    have h2 : ((pre ++ { x with qty := x.qty + 1 } :: post).map tripleOf).Pairwise Ne := by
      rw [hmap]
      exact h1
    exact List.pairwise_map.mp h2

/-- C9 witness: adding to an empty basket appends one fresh line. -/
theorem addToBasket_grouping_witness :
    addToBasket []
        [] { id := "p-bombs", name := "Bombs", category := "Shots",
             units := some ["One"], pricesPence := some [("One", 290)] } "One" "k1" =
      [] ++ [freshLine
        { id := "p-bombs", name := "Bombs", category := "Shots",
          units := some ["One"], pricesPence := some [("One", 290)] } "One" 290 "k1"] :=
  (addToBasket_grouping []
      [] { id := "p-bombs", name := "Bombs", category := "Shots",
           units := some ["One"], pricesPence := some [("One", 290)] } "One" "k1" 290
      (by decide)).1 (by simp)

/-- C10: every basket operation preserves "all quantities ≥ 1"; in
particular decrementing cannot leave a zero-quantity line, and
decrementing a key whose lines all have quantity 1 removes them
entirely. -/
theorem basket_ops_qty_positive (bands : List Band) (basket : List Line) (p : Product)
    (unit newKey key : String) (hinv : ∀ l ∈ basket, 1 ≤ l.qty) :
    (∀ l ∈ addToBasket bands basket p unit newKey, 1 ≤ l.qty) ∧
    (∀ l ∈ incQty key basket, 1 ≤ l.qty) ∧
    (∀ l ∈ decQty key basket, 1 ≤ l.qty) ∧
    (∀ l ∈ removeLine key basket, 1 ≤ l.qty) ∧
    ((∀ l ∈ basket, l.key = key → l.qty = 1) →
        ∀ l ∈ decQty key basket, l.key ≠ key) := by
  refine ⟨?_, ?_, ?_, ?_, ?_⟩
  · intro l hl
    simp only [addToBasket] at hl
    cases hidx : jsFindIndex (lineMatches p unit (resolvedPrice bands p unit)) basket with
    | none =>
        rw [hidx] at hl
        simp only [List.mem_append, List.mem_singleton] at hl
        rcases hl with hl | rfl
        · exact hinv l hl
        · exact le_refl 1
    | some i =>
        rw [hidx] at hl
        simp only [mapWithIdx] at hl
        obtain ⟨j, l0, hl0, rfl⟩ := mem_mapWithIdxAux _ basket 0 l hl
        by_cases hj : (j == i) = true
        · simp only [hj, if_true]
          have h1 := hinv l0 hl0
          show 1 ≤ l0.qty + 1
          omega
        · rw [Bool.not_eq_true] at hj
          simp only [hj, Bool.false_eq_true, if_false]
          exact hinv l0 hl0
  · intro l hl
    simp only [incQty, List.mem_map] at hl
    obtain ⟨l0, hl0, rfl⟩ := hl
    by_cases hk : (l0.key == key) = true
    · simp only [hk, if_true]
      have h1 := hinv l0 hl0
      show 1 ≤ l0.qty + 1
      omega
    · rw [Bool.not_eq_true] at hk
      simp only [hk, Bool.false_eq_true, if_false]
      exact hinv l0 hl0
  · intro l hl
    simp only [decQty, List.mem_filter] at hl
    have h2 := hl.2
    rw [decide_eq_true_eq] at h2
    omega
  · intro l hl
    exact hinv l (List.mem_filter.mp hl).1
  · intro hone l hl
    simp only [decQty, List.mem_filter] at hl
    obtain ⟨hmem, hpos⟩ := hl
    rw [decide_eq_true_eq] at hpos
    simp only [List.mem_map] at hmem
    obtain ⟨l0, hl0, rfl⟩ := hmem
    by_cases hk : (l0.key == key) = true
    · have hkeq : l0.key = key := by simpa using hk
      have h1 : l0.qty = 1 := hone l0 hl0 hkeq
      simp only [hk, if_true] at hpos
      have hq : (0 : Int) < l0.qty - 1 := hpos
      omega
    · rw [Bool.not_eq_true] at hk
      simp only [hk, Bool.false_eq_true, if_false]
      intro hkeq
      rw [hkeq] at hk
      simp at hk

/-- C10 witness: the line freshly added to an empty basket has
quantity ≥ 1. -/
theorem basket_ops_qty_positive_witness :
    (1 : Int) ≤ Line.qty ⟨"k2", "p1", "Beer", "One", 0, 1⟩ :=
  (basket_ops_qty_positive [] [] { id := "p1", name := "Beer", category := "Softs" }
      "One" "k2" "k1" (by simp)).1
    ⟨"k2", "p1", "Beer", "One", 0, 1⟩ (by decide)

/-! ## Exact characterization of both deal filters (claim C1, corrected) -/

/-- C1 counterexample: the part_000 filter (cited by the claim alongside
the App.jsx one) *keeps* a deal whose trigger quantity is the string
`"2"` — not a finite number — because its `d.qty > 0` comparison
coerces; the deal is then genuinely considered, producing the bundle
total 200.  This refutes "every entry with a non-numeric trigger
quantity is dropped" for the part_000 implementation. -/
theorem bundle_filter_part000_counterexample :
    partBundleDeals [some ⟨.str "bundle" .nan, .str "2" (.fin 2), .num (.fin 100)⟩] =
      [⟨.str "bundle" .nan, .str "2" (.fin 2), .num (.fin 100)⟩] ∧
    JVal.isFiniteNum (.str "2" (.fin 2)) = false ∧
    (bestLineTotalWithDeals_part000 100 4
        (some [some ⟨.str "bundle" .nan, .str "2" (.fin 2), .num (.fin 100)⟩])).totalPence =
      ENum.fin 200 := by
  decide

lemma gtZeroJS_iff (e : ENum) :
    ENum.gtZeroJS e = true ↔ (∃ n : Int, e = .fin n ∧ 0 < n) ∨ e = .posInf := by
  cases e <;> simp [ENum.gtZeroJS]

lemma geZeroJS_iff (e : ENum) :
    ENum.geZeroJS e = true ↔ (∃ m : Int, e = .fin m ∧ 0 ≤ m) ∨ e = .posInf := by
  cases e <;> simp [ENum.geZeroJS]

lemma partDealOk_iff (dl : Deal) :
    partDealOk (some dl) = true ↔
      (∃ c, dl.type = JVal.str "bundle" c) ∧
      ((∃ n : Int, dl.qty.toENum = .fin n ∧ 0 < n) ∨ dl.qty.toENum = .posInf) ∧
      ((∃ m : Int, dl.pricePence.toENum = .fin m ∧ 0 ≤ m) ∨
        dl.pricePence.toENum = .posInf) := by
  show (dl.type.strictEqStr "bundle" && ENum.gtZeroJS dl.qty.toENum &&
      ENum.geZeroJS dl.pricePence.toENum) = true ↔ _
  simp only [Bool.and_eq_true]
  rw [strictEqStr_bundle_iff, gtZeroJS_iff, geZeroJS_iff, and_assoc]

lemma partBundleDeals_mem_iff (deals : List (Option Deal)) (dl : Deal) :
    dl ∈ partBundleDeals deals ↔
      some dl ∈ deals ∧
      (∃ c, dl.type = JVal.str "bundle" c) ∧
      ((∃ n : Int, dl.qty.toENum = .fin n ∧ 0 < n) ∨ dl.qty.toENum = .posInf) ∧
      ((∃ m : Int, dl.pricePence.toENum = .fin m ∧ 0 ≤ m) ∨
        dl.pricePence.toENum = .posInf) := by
  rw [← partDealOk_iff, and_comm (b := partDealOk (some dl) = true)]
  unfold partBundleDeals
  rw [List.mem_filterMap]
  constructor
  · intro ⟨a, ha, hfa⟩
    obtain ⟨rfl, hok⟩ := filterIf_eq_some.mp hfa
    exact ⟨hok, ha⟩
  · intro ⟨hok, hmem⟩
    exact ⟨some dl, hmem, filterIf_eq_some.mpr ⟨rfl, hok⟩⟩

/-- C1 (amended): the App.jsx filter considers exactly the entries whose
tag is `"bundle"`, whose trigger quantity is a finite number > 0 and
whose bundle price is a finite number ≥ 0.  The part_000 filter lacks
the finiteness checks: it considers exactly the entries whose tag is
`"bundle"` and whose trigger quantity and bundle price *coerce* to a
positive (resp. non-negative) number or to +∞ — so e.g. a numeric-string
trigger is considered there.  In both, every other entry is dropped
silently, by a total function (no error raised). -/
theorem bundleDeals_filter_exact (deals : List (Option Deal)) (dl : Deal) :
    (dl ∈ appBundleDeals deals ↔
      some dl ∈ deals ∧
      (∃ c, dl.type = JVal.str "bundle" c) ∧
      (∃ n : Int, dl.qty = JVal.num (.fin n) ∧ 0 < n) ∧
      (∃ m : Int, dl.pricePence = JVal.num (.fin m) ∧ 0 ≤ m)) ∧
    (dl ∈ partBundleDeals deals ↔
      some dl ∈ deals ∧
      (∃ c, dl.type = JVal.str "bundle" c) ∧
      ((∃ n : Int, dl.qty.toENum = .fin n ∧ 0 < n) ∨ dl.qty.toENum = .posInf) ∧
      ((∃ m : Int, dl.pricePence.toENum = .fin m ∧ 0 ≤ m) ∨
        dl.pricePence.toENum = .posInf)) :=
  ⟨appBundleDeals_mem_iff deals dl, partBundleDeals_mem_iff deals dl⟩
